import Mathlib

/-!
Verification of the PyAnnote clustering core against its specification.

This file gives a shallow embedding, in Lean 4, of the parts of the
repository that the specification talks about:

* `src/pyannote/base/matrix.py` -- the label-indexed matrix
  (`LabelMatrix`, called `PairwiseMatrix` in the specification):
  construction, `__getitem__`, `__setitem__`, `__add_ilabel`,
  `__add_jlabel`, the `T` (transpose) property, `__neg__`,
  `__delitem__`, `argmax` and `argmin`.
* `src/pyannote/algorithm/clustering/model/base.py` --
  `BaseModelMixin.mmx_similarity_matrix` (symmetric and asymmetric fill).
* `src/pyannote/algorithm/clustering/constraint.py` --
  `ContiguousConstraintMixin._initialize_constraint`,
  `_update_constraint` and `_meet_constraint`.
* `src/pyannote/algorithm/mpg/gurobi2.py` --
  `ILPClustering.to_annotation` (ILP solution decoding via connected
  components of the co-cluster graph).

NumPy 2-D arrays are embedded as an explicit shape (the pair of `nrows`
and `ncols`, which NumPy stores alongside the data) together with an
entry function; machine floats are embedded as rationals, since every
property at stake is order- and equality-based, not rounding-based.
Fallible Python code (raised exceptions) is embedded with `Except`.

The file is organized as definitions first, theorems second.
-/

namespace PyAnnote

/-! ## Definitions -/

/-- Embedding of a NumPy 2-D array: the stored shape together with the
entries.  `entry i j` is meaningful for `i < nrows` and `j < ncols`;
outside that range it is junk, exactly as memory past the end of a
NumPy buffer would be. -/
structure NArr (γ : Type) where
  nrows : Nat
  ncols : Nat
  entry : Nat → Nat → γ

namespace NArr

/-- `default * np.ones((n, m))`: a constant `n × m` array. -/
def filled (γ : Type) (n m : Nat) (v : γ) : NArr γ :=
  ⟨n, m, fun _ _ => v⟩

/-- `M[i, j] = v`: pointwise update. -/
def setE {γ : Type} (a : NArr γ) (i j : Nat) (v : γ) : NArr γ :=
  ⟨a.nrows, a.ncols, fun r c => if r = i ∧ c = j then v else a.entry r c⟩

/-- `np.append(M, default * np.ones((1, m)), axis=0)`: append one row
holding `v` everywhere. -/
def appendRow {γ : Type} (a : NArr γ) (v : γ) : NArr γ :=
  ⟨a.nrows + 1, a.ncols, fun r c => if r = a.nrows then v else a.entry r c⟩

/-- `np.append(M, default * np.ones((n, 1)), axis=1)`: append one column
holding `v` everywhere. -/
def appendCol {γ : Type} (a : NArr γ) (v : γ) : NArr γ :=
  ⟨a.nrows, a.ncols + 1, fun r c => if c = a.ncols then v else a.entry r c⟩

/-- `M.T`: the transposed array. -/
def transp {γ : Type} (a : NArr γ) : NArr γ :=
  ⟨a.ncols, a.nrows, fun r c => a.entry c r⟩

/-- `-M`: pointwise negation. -/
def negA (a : NArr ℚ) : NArr ℚ :=
  ⟨a.nrows, a.ncols, fun r c => -(a.entry r c)⟩

end NArr

/-- Embedding of `pyannote.base.matrix.LabelMatrix`: two label lists
(the Python object also keeps `label2i` and `label2j` dictionaries,
which are determined by the lists, so we derive indices with
`List.indexOf` instead of duplicating the state), the optional NumPy
array (`__Mij`, which is `None` when the matrix was created with no
labels and no data), and the default value.  `γ` is the entry type
(`float` or `bool` in the Python code). -/
structure LabelMatrix (α γ : Type) where
  ilabels : List α
  jlabels : List α
  Mij : Option (NArr γ)
  default : γ

namespace LabelMatrix

variable {α γ : Type} [DecidableEq α]

/-- `LabelMatrix.__init__`: checks the shape of a provided array against
the label lists (fatal mismatch), otherwise builds a matrix filled with
the default value, or keeps `__Mij = None` when there are no labels at
all. -/
def init (il jl : List α) (Mij : Option (NArr γ)) (d : γ) :
    Except String (LabelMatrix α γ) :=
  match Mij with
  | none =>
      if il.length ≠ 0 ∨ jl.length ≠ 0 then
        .ok ⟨il, jl, some (NArr.filled γ il.length jl.length d), d⟩
      else
        .ok ⟨il, jl, none, d⟩
  | some a =>
      if a.nrows = il.length ∧ a.ncols = jl.length then
        .ok ⟨il, jl, some a, d⟩
      else
        .error "ValueError: matrix shape mismatch"

/-- The `shape` property: the stored NumPy shape, `(0, 0)` when
`__Mij is None`. -/
def shape (m : LabelMatrix α γ) : Nat × Nat :=
  match m.Mij with
  | none => (0, 0)
  | some a => (a.nrows, a.ncols)

/-- `LabelMatrix.__getitem__` on a single pair of labels: the stored
entry when both labels are known, the default value otherwise. -/
def getItem (m : LabelMatrix α γ) (i j : α) : γ :=
  if i ∈ m.ilabels ∧ j ∈ m.jlabels then
    match m.Mij with
    | some a => a.entry (m.ilabels.indexOf i) (m.jlabels.indexOf j)
    | none => m.default
  else
    m.default

/-- `LabelMatrix.__add_ilabel` (requires the array to be present, which
`__setitem__` guarantees): append the label and one default-filled row. -/
def addIlabel (m : LabelMatrix α γ) (a : NArr γ) (i : α) :
    (List α) × NArr γ :=
  (m.ilabels ++ [i], a.appendRow m.default)

/-- `LabelMatrix.__add_jlabel`: append the label and one default-filled
column. -/
def addJlabel (m : LabelMatrix α γ) (a : NArr γ) (j : α) :
    (List α) × NArr γ :=
  (m.jlabels ++ [j], a.appendCol m.default)

/-- `LabelMatrix.__setitem__` on a single pair of labels.  When
`__Mij is None` both labels are appended and a fresh `1 × 1` array is
created; otherwise unseen labels are appended through `__add_ilabel` /
`__add_jlabel` and the addressed entry is written. -/
def setItem (m : LabelMatrix α γ) (i j : α) (v : γ) : LabelMatrix α γ :=
  match m.Mij with
  | none =>
      ⟨m.ilabels ++ [i], m.jlabels ++ [j], some ⟨1, 1, fun _ _ => v⟩,
        m.default⟩
  | some a =>
      let pi := if i ∈ m.ilabels then (m.ilabels, a) else m.addIlabel a i
      let pj :=
        if j ∈ m.jlabels then (m.jlabels, pi.2)
        else (m.jlabels ++ [j], pi.2.appendCol m.default)
      let r := pi.1.indexOf i
      let c := pj.1.indexOf j
      ⟨pi.1, pj.1, some (pj.2.setE r c v), m.default⟩

/-- `LabelMatrix.__delitem__`: the code raises `NotImplementedError`
for every key. -/
def delItem (_m : LabelMatrix α γ) (_key : α × Option α) :
    Except String (LabelMatrix α γ) :=
  .error "NotImplementedError"

/-- The `T` property: `LabelMatrix(self.__jlabels, self.__ilabels,
self.__Mij.T)`.  The default value is not forwarded, so the transposed
matrix gets the constructor default `0.`; and when `__Mij is None` the
attribute access `.T` on `None` raises. -/
def transpose (m : LabelMatrix α ℚ) : Except String (LabelMatrix α ℚ) :=
  match m.Mij with
  | none => .error "AttributeError: NoneType object has no attribute T"
  | some a => .ok ⟨m.jlabels, m.ilabels, some a.transp, 0⟩

/-- `LabelMatrix.__neg__`: negated copy with negated default.  When
`__Mij is None`, negating `np.copy(None)` (a 0-d object array) raises a
`TypeError`. -/
def negM (m : LabelMatrix α ℚ) : Except String (LabelMatrix α ℚ) :=
  match m.Mij with
  | none => .error "TypeError: bad operand type for unary minus"
  | some a => .ok ⟨m.ilabels, m.jlabels, some a.negA, -m.default⟩

/-- Well-formedness invariant tying the label lists to the stored NumPy
shape: labels are unique on each axis, the array is absent only when
both label lists are empty, and otherwise its stored shape is exactly
`(number of row labels, number of column labels)`. -/
structure WF (m : LabelMatrix α γ) : Prop where
  nodup_i : m.ilabels.Nodup
  nodup_j : m.jlabels.Nodup
  none_empty : m.Mij = none → m.ilabels = [] ∧ m.jlabels = []
  shape_i : ∀ a, m.Mij = some a → a.nrows = m.ilabels.length
  shape_j : ∀ a, m.Mij = some a → a.ncols = m.jlabels.length

/-- A sequence of `__setitem__` calls, in order. -/
def setMany (m : LabelMatrix α γ) (ops : List (α × α × γ)) :
    LabelMatrix α γ :=
  ops.foldl (fun m op => m.setItem op.1 op.2.1 op.2.2) m

/-- Tie handling mode of `argmax` (parameter `ties`). -/
inductive Ties
  | all
  | any
deriving DecidableEq

/-- The `axis` parameter of `argmax` / `argmin`: `A0` is `axis=0`, `A1`
is `axis=1`; `Option Axis` with `none` is `axis=None`. -/
inductive Axis
  | A0
  | A1
deriving DecidableEq

/-- Return value of `argmax`: a per-label dictionary for `axis=0` or
`axis=1` (here an association list in row-label order, each set kept as
a list in column order), or a set of index pairs for `axis=None`. -/
inductive ArgRes (α : Type)
  | perLabel (pairs : List (α × List α))
  | globalPairs (pairs : List (α × α))
deriving DecidableEq

/-- `np.max` of a 1-D value list; NumPy raises `ValueError` on an empty
array. -/
def npMax : List ℚ → Except String ℚ
  | [] => .error "ValueError: zero-size array reduction has no identity"
  | x :: xs => .ok (xs.foldl max x)

/-- `self.M[i, :]`: the values of row `i`. -/
def rowVals (a : NArr γ) (i : Nat) : List γ :=
  (List.range a.ncols).map (a.entry i)

/-- The guard `threshold is None or m > threshold`. -/
def keepRow (threshold : Option ℚ) (mx : ℚ) : Bool :=
  match threshold with
  | none => true
  | some t => decide (mx > t)

/-- The tie collapse `if ties == 'any' and len(s) > 1: s = set([s.pop()])`
(CPython `set.pop()` returns an unspecified element; modelled as the
first in column order). -/
def tiePick {α : Type} (ties : Ties) (s : List α) : List α :=
  if ties = Ties.any ∧ 1 < s.length then s.take 1 else s

/-- `argmax(axis=0)`: for every row label, the set of column labels
attaining the row maximum -- empty when a threshold is given and the
maximum does not strictly exceed it; `ties='any'` goes through
`tiePick`.  The matrix array is only consulted inside the loop over row
labels, so an absent array is never touched (the label list is empty
then). -/
def argmax0 (m : LabelMatrix α ℚ) (threshold : Option ℚ) (ties : Ties) :
    Except String (List (α × List α)) :=
  let a := m.Mij.getD (NArr.filled ℚ 0 0 0)
  m.ilabels.enum.mapM fun p => do
    let mx ← npMax (rowVals a p.1)
    let keep : Bool := keepRow threshold mx
    let s : List α :=
      if keep then
        (m.jlabels.enum.filter (fun q => a.entry p.1 q.1 = mx)).map (·.2)
      else []
    pure (p.2, tiePick ties s)

/-- `argmax(axis=None)`: the set of all (row label, column label) pairs
attaining the global maximum, or the empty set under a threshold the
maximum does not exceed; `np.max` of an absent or empty array raises. -/
def argmaxN (m : LabelMatrix α ℚ) (threshold : Option ℚ) :
    Except String (List (α × α)) := do
  match m.Mij with
  | none => .error "TypeError: unsupported operand, max of None"
  | some a =>
      let mx ← npMax ((List.range a.nrows).flatMap (fun i => rowVals a i))
      let keep : Bool := keepRow threshold mx
      if keep then
        .ok (m.ilabels.enum.flatMap (fun p =>
          (m.jlabels.enum.filter (fun q => a.entry p.1 q.1 = mx)).map
            (fun q => (p.2, q.2))))
      else
        .ok []

/-- `LabelMatrix.argmax`.  For `axis=1` the code delegates to
`self.T.argmax(axis=0, threshold=threshold)` and does NOT forward the
`ties` argument, which therefore falls back to its default value
`'all'`. -/
def argmax (m : LabelMatrix α ℚ) (axis : Option Axis)
    (threshold : Option ℚ) (ties : Ties) : Except String (ArgRes α) :=
  match axis with
  | some .A0 => do pure (.perLabel (← argmax0 m threshold ties))
  | some .A1 => do
      let mt ← m.transpose
      pure (.perLabel (← argmax0 mt threshold Ties.all))
  | none => do pure (.globalPairs (← argmaxN m threshold))

/-- Python unary minus applied to the optional `threshold` argument:
`-None` raises a `TypeError`. -/
def negOpt : Option ℚ → Except String ℚ
  | none => .error "TypeError: bad operand type for unary minus NoneType"
  | some t => .ok (-t)

/-- `LabelMatrix.argmin`: `return (-self).argmax(axis=axis,
threshold=-threshold)`.  The threshold is negated unconditionally and
the `ties` argument is not forwarded (so `argmax` runs with its default
`'all'`). -/
def argmin (m : LabelMatrix α ℚ) (axis : Option Axis)
    (threshold : Option ℚ) (_ties : Ties) : Except String (ArgRes α) := do
  let n ← m.negM
  let t ← negOpt threshold
  argmax n axis (some t) Ties.all

/-- Specification-side description of the maximum value of row `i`
(over the column labels), used to state properties of `argmax`. -/
def rowMaxSpec (m : LabelMatrix α ℚ) (i : α) : ℚ :=
  match m.jlabels.map (fun j => m.getItem i j) with
  | [] => 0
  | x :: xs => xs.foldl max x

end LabelMatrix

/-! ### `BaseModelMixin.mmx_similarity_matrix`
(`src/pyannote/algorithm/clustering/model/base.py`) -/

/-- `X[i, j] = v` on the NumPy similarity matrix, kept as a plain
function since `np.empty` leaves initial entries arbitrary. -/
def writeAt (X : Nat → Nat → ℚ) (i j : Nat) (v : ℚ) : Nat → Nat → ℚ :=
  fun r c => if r = i ∧ c = j then v else X r c

/-- `BaseModelMixin.mmx_similarity_matrix`: loops over all ordered pairs
of labels; when the model declares itself symmetric the inner loop
breaks as soon as `j > i` (so it covers `j = 0..i`) and every computed
`X[i, j]` is mirrored to `X[j, i]`.  `X0` stands for the arbitrary
initial contents of `np.empty((N, N))`. -/
def mmxSimilarityMatrix {α : Type} (symmetric : Bool) (cmp : α → α → ℚ)
    (labels : List α) (X0 : Nat → Nat → ℚ) : Nat → Nat → ℚ :=
  labels.enum.foldl
    (fun X p =>
      (if symmetric then labels.enum.take (p.1 + 1) else labels.enum).foldl
        (fun X q =>
          let X1 := writeAt X p.1 q.1 (cmp p.2 q.2)
          if symmetric then writeAt X1 q.1 p.1 (X1 p.1 q.1) else X1)
        X)
    X0

/-! ### `ContiguousConstraintMixin`
(`src/pyannote/algorithm/clustering/constraint.py`)

The timeline arithmetic (`label_coverage`, `copy(segment_func=...)`,
intersection `&`) lives partly in `segment.py`, which the constraint
code treats as an opaque capability; the embedding therefore takes the
"extended coverages intersect" test as a boolean function `inter` on
label pairs. -/

/-- The Python call `LabelMatrix(dtype=bool, default=False)` at the top
of `_initialize_constraint`.  The constructor signature in
`src/pyannote/base/matrix.py` is
`__init__(self, ilabels=None, jlabels=None, Mij=None, default=0.)`:
it has no `dtype` parameter and no keyword catch-all, so CPython raises
`TypeError` before the constructor body ever runs. -/
def labelMatrixDtypeBoolCall (α : Type) :
    Except String (LabelMatrix α Bool) :=
  .error "TypeError: init got an unexpected keyword argument dtype"

/-- The pair loop of `_initialize_constraint` (lines 58-78): for each
label and each later label, record `True` in both directions when the
extended coverages intersect (`False` stays the default). -/
def fillContiguity {β : Type} [DecidableEq β] (m0 : LabelMatrix β Bool)
    (labels : List β) (inter : β → β → Bool) : LabelMatrix β Bool :=
  labels.enum.foldl
    (fun m p =>
      (labels.drop (p.1 + 1)).foldl
        (fun m other =>
          if inter p.2 other then
            (m.setItem p.2 other true).setItem other p.2 true
          else m)
        m)
    m0

/-- `ContiguousConstraintMixin._initialize_constraint`: first builds the
boolean matrix -- which raises `TypeError` because of the `dtype`
keyword -- and would then run the pair loop. -/
def initializeContiguityConstraint {β : Type} [DecidableEq β]
    (labels : List β) (inter : β → β → Bool) :
    Except String (LabelMatrix β Bool) := do
  let contiguous ← labelMatrixDtypeBoolCall β
  .ok (fillContiguity contiguous labels inter)

/-- `ContiguousConstraintMixin._meet_constraint`: every unordered pair
of the candidate labels must be recorded as contiguous. -/
def meetContiguityConstraint {β : Type} [DecidableEq β]
    (contiguous : LabelMatrix β Bool) (labels : List β) : Bool :=
  labels.enum.all
    (fun p => (labels.drop (p.1 + 1)).all
      (fun other => contiguous.getItem p.2 other))

/-- The row/column refresh loop of `_update_constraint` (lines 93-108). -/
def updateContiguityLoop {β : Type} [DecidableEq β]
    (contiguous : LabelMatrix β Bool) (labels : List β) (newLabel : β)
    (inter : β → β → Bool) : LabelMatrix β Bool :=
  labels.foldl
    (fun m label =>
      if label = newLabel then m
      else
        let c := inter newLabel label
        (m.setItem newLabel label c).setItem label newLabel c)
    contiguous

/-- `ContiguousConstraintMixin._update_constraint`: first deletes the
rows and columns of the consumed labels -- the first such deletion goes
through `LabelMatrix.__delitem__`, which raises `NotImplementedError` --
then refreshes the row and column of the new label. -/
def updateContiguityConstraint {β : Type} [DecidableEq β]
    (contiguous : LabelMatrix β Bool) (labels : List β) (newLabel : β)
    (merged : List β) (inter : β → β → Bool) :
    Except String (LabelMatrix β Bool) :=
  match merged.find? (fun l => decide (l ≠ newLabel)) with
  | some l => do
      let m ← contiguous.delItem (l, none)
      .ok (updateContiguityLoop m labels newLabel inter)
  | none => .ok (updateContiguityLoop contiguous labels newLabel inter)

/-! ### `ILPClustering.to_annotation`
(`src/pyannote/algorithm/mpg/gurobi2.py`) -/

/-- Items of the ILP problem: `TrackNode {uri, modality, segment,
track}` and `IdentityNode {identifier}` (from
`pyannote/algorithm/mpg/node.py`); the decoder only inspects the kind,
the track fields and the identifier, so segments and track names are
opaque numbers here. -/
inductive Node
  | track (uri modality : String) (segment : Nat) (trackName : Nat)
  | ident (identifier : String)
deriving DecidableEq

/-- Is this an `IdentityNode`? (`isinstance(node, IdentityNode)`). -/
def Node.isIdent : Node → Bool
  | .ident _ => true
  | .track _ _ _ _ => false

/-- Is this a `TrackNode` of the given document and modality?
(`isinstance(node, TrackNode) and node.uri == uri and node.modality ==
modality`). -/
def Node.isTrackOf (uri modality : String) : Node → Bool
  | .track u mo _ _ => decide (u = uri ∧ mo = modality)
  | .ident _ => false

/-- An ILP solution as read back from the solver: one binary value per
ordered pair of items (the `solution` dict of `ILPClustering.solve`;
`True` stands for `x[I, J] = 1`). -/
abbrev Solution := List ((Node × Node) × Bool)

/-- The nodes of the graph built by `to_annotation`: both endpoints of
every pair are added (`c.add_node`). -/
def nodesOf (sol : Solution) : List Node :=
  (sol.flatMap (fun e => [e.1.1, e.1.2])).dedup

/-- Undirected adjacency: `c.add_edge(I, J)` whenever the pair has a
truthy solution value (the graph is undirected, so both orientations
count). -/
def adjacent (sol : Solution) (a b : Node) : Bool :=
  sol.any (fun e =>
    e.2 && decide ((e.1.1 = a ∧ e.1.2 = b) ∨ (e.1.1 = b ∧ e.1.2 = a)))

/-- One breadth-first growth step of a connected component: add every
node adjacent to the component. -/
def growComp (sol : Solution) (nodes comp : List Node) : List Node :=
  comp ++ nodes.filter
    (fun n => !(comp.contains n) && comp.any (fun c => adjacent sol c n))

/-- Iterated growth to a fixed point, with fuel. -/
def reach (sol : Solution) (nodes : List Node) :
    Nat → List Node → List Node
  | 0, comp => comp
  | fuel + 1, comp =>
      let c := growComp sol nodes comp
      if c.length = comp.length then comp else reach sol nodes fuel c

/-- The connected component of one node. -/
def component (sol : Solution) (n : Node) : List Node :=
  reach sol (nodesOf sol) (nodesOf sol).length [n]

/-- `nx.connected_components(c)`: the list of connected components. -/
def componentsOf (sol : Solution) : List (List Node) :=
  (nodesOf sol).foldl
    (fun acc n =>
      if acc.any (fun c => c.contains n) then acc
      else acc ++ [component sol n])
    []

/-- A decoded cluster label: either the identifier of the identity item
of the cluster, or a freshly minted unknown identity (`Unknown()` from
`pyannote.base.annotation`, whose instances are pairwise distinct;
modelled by a counter). -/
inductive PersonId
  | known (s : String)
  | unknown (k : Nat)
deriving DecidableEq

/-- One entry of the decoded annotation:
`annotation[node.segment, node.track] = identity`. -/
structure TrackEntry where
  segment : Nat
  trackName : Nat
  who : PersonId
deriving DecidableEq

/-- Number of identity-kind items in a cluster. -/
def numIdents (c : List Node) : Nat :=
  (c.filter Node.isIdent).length

/-- The identity chosen for one cluster together with the next fresh
counter: `identity = inodes[0].identifier` when there is an identity
item, otherwise a freshly minted unknown. -/
def clusterId (inodes : List Node) (k : Nat) : PersonId × Nat :=
  match inodes with
  | Node.ident s :: _ => (.known s, k)
  | _ => (.unknown k, k + 1)

/-- `annotation[node.segment, node.track] = identity` for one node
(track nodes only). -/
def entryOf (who : PersonId) : Node → Option TrackEntry
  | Node.track _ _ seg tn => some ⟨seg, tn, who⟩
  | Node.ident _ => none

/-- The cluster loop of `to_annotation`: for each cluster, fail when it
holds more than one identity item, label it with the single identity
identifier when there is one, otherwise mint a fresh unknown identity
(counter `k`), and emit one entry per matching track node. -/
def decodeClusters (modality uri : String) :
    List (List Node) → Nat → Except String (List TrackEntry)
  | [], _ => .ok []
  | c :: cs, k =>
      let inodes := c.filter Node.isIdent
      if 1 < inodes.length then
        .error "Cluster contains more than one identity."
      else
        let idk := clusterId inodes k
        let tnodes := c.filter (Node.isTrackOf uri modality)
        match decodeClusters modality uri cs idk.2 with
        | .error e => .error e
        | .ok rest => .ok (tnodes.filterMap (entryOf idk.1) ++ rest)

/-- `ILPClustering.to_annotation`: components of the co-cluster graph,
then the cluster loop with a fresh unknown-identity counter. -/
def decodeSolution (sol : Solution) (modality uri : String) :
    Except String (List TrackEntry) :=
  decodeClusters modality uri (componentsOf sol) 0

/-- Specification-side description of the identity assigned to each
cluster, in order: the known identifier when the cluster has an
identity item, a fresh unknown otherwise (counter threaded left to
right).  Used to state properties of `decodeClusters`. -/
def assignedIds : List (List Node) → Nat → List PersonId
  | [], _ => []
  | c :: cs, k =>
      (clusterId (c.filter Node.isIdent) k).1 ::
        assignedIds cs (clusterId (c.filter Node.isIdent) k).2

/-- Concrete ILP items for a small decoded example: two tracks of the
same document and one identity. -/
def nT1 : Node := .track "u" "m" 0 0

def nT2 : Node := .track "u" "m" 1 0

def nI : Node := .ident "alice"

/-- A concrete solved instance: track 1 matches the identity, track 2
matches nothing. -/
def solW : Solution := [((nT1, nT1), true), ((nT1, nI), true), ((nT2, nT2), true)]

/-! ### Concrete instances used by counterexamples and witnesses -/

/-- A small concrete well-formed matrix (row label "a", column label
"b", single entry 5, default 5). -/
def mW : LabelMatrix String ℚ := ⟨["a"], ["b"], some (NArr.filled ℚ 1 1 5), 5⟩

/-- A concrete matrix with a nonzero default value, on which double
transposition changes the default. -/
def c6m : LabelMatrix String ℚ := ⟨["a"], ["b"], some ⟨1, 1, fun _ _ => 2⟩, 1⟩

/-- A concrete 2 × 2 matrix: row "a" holds `[2, 0]`, row "b" holds
`[1, 1]`. -/
def mx7 : LabelMatrix String ℚ :=
  ⟨["a", "b"], ["d", "e"],
    some ⟨2, 2, fun i j =>
      if i = 0 ∧ j = 0 then 2 else if i = 0 then 0 else 1⟩, 0⟩

/-- A concrete 2 × 1 all-ones matrix: its unique column has two tied
row labels. -/
def mx8 : LabelMatrix String ℚ :=
  ⟨["a", "b"], ["c"], some ⟨2, 1, fun _ _ => 1⟩, 0⟩

/-! ## Theorems -/

namespace NArr

theorem transp_transp {γ : Type} (a : NArr γ) : a.transp.transp = a := rfl

@[simp]
theorem setE_entry {γ : Type} (a : NArr γ) (i j r c : Nat) (v : γ) :
    (a.setE i j v).entry r c = if r = i ∧ c = j then v else a.entry r c := rfl

@[simp]
theorem appendRow_entry {γ : Type} (a : NArr γ) (v : γ) (r c : Nat) :
    (a.appendRow v).entry r c = if r = a.nrows then v else a.entry r c := rfl

@[simp]
theorem appendCol_entry {γ : Type} (a : NArr γ) (v : γ) (r c : Nat) :
    (a.appendCol v).entry r c = if c = a.ncols then v else a.entry r c := rfl

@[simp]
theorem appendRow_nrows {γ : Type} (a : NArr γ) (v : γ) :
    (a.appendRow v).nrows = a.nrows + 1 := rfl

@[simp]
theorem appendRow_ncols {γ : Type} (a : NArr γ) (v : γ) :
    (a.appendRow v).ncols = a.ncols := rfl

@[simp]
theorem appendCol_nrows {γ : Type} (a : NArr γ) (v : γ) :
    (a.appendCol v).nrows = a.nrows := rfl

@[simp]
theorem appendCol_ncols {γ : Type} (a : NArr γ) (v : γ) :
    (a.appendCol v).ncols = a.ncols + 1 := rfl

@[simp]
theorem setE_nrows {γ : Type} (a : NArr γ) (i j : Nat) (v : γ) :
    (a.setE i j v).nrows = a.nrows := rfl

@[simp]
theorem setE_ncols {γ : Type} (a : NArr γ) (i j : Nat) (v : γ) :
    (a.setE i j v).ncols = a.ncols := rfl

@[simp]
theorem filled_entry {γ : Type} (n m : Nat) (v : γ) (r c : Nat) :
    (NArr.filled γ n m v).entry r c = v := rfl

end NArr

namespace LabelMatrix

variable {α γ : Type} [DecidableEq α]

theorem indexOf_append_self {l : List α} {x : α} (hx : x ∉ l) :
    (l ++ [x]).indexOf x = l.length := by
  rw [List.indexOf_append_of_not_mem hx, List.indexOf_cons_self]
  omega

/-- Writing a pair and reading it back yields the written value. -/
theorem getItem_setItem_same (m : LabelMatrix α γ) (i j : α) (v : γ) :
    (m.setItem i j v).getItem i j = v := by
  rcases hM : m.Mij with _ | a
  · simp [setItem, getItem, hM]
  · simp only [setItem, hM, getItem]
    by_cases hi : i ∈ m.ilabels <;> by_cases hj : j ∈ m.jlabels <;>
      simp [hi, hj, addIlabel]

/-- The row labels after a set: the written row label is appended when
unseen, otherwise the label list is unchanged. -/
theorem setItem_ilabels (m : LabelMatrix α γ) (i j : α) (v : γ)
    (hwf : m.WF) :
    (m.setItem i j v).ilabels =
      if i ∈ m.ilabels then m.ilabels else m.ilabels ++ [i] := by
  rcases hM : m.Mij with _ | a
  · obtain ⟨hil, _⟩ := hwf.none_empty hM
    simp [setItem, hM, hil]
  · simp only [setItem, hM, addIlabel]
    by_cases hi : i ∈ m.ilabels <;> simp [hi]

theorem setItem_jlabels (m : LabelMatrix α γ) (i j : α) (v : γ)
    (hwf : m.WF) :
    (m.setItem i j v).jlabels =
      if j ∈ m.jlabels then m.jlabels else m.jlabels ++ [j] := by
  rcases hM : m.Mij with _ | a
  · obtain ⟨_, hjl⟩ := hwf.none_empty hM
    simp [setItem, hM, hjl]
  · simp only [setItem, hM, addIlabel]
    by_cases hi : i ∈ m.ilabels <;> by_cases hj : j ∈ m.jlabels <;>
      simp [hi, hj]

theorem setItem_default (m : LabelMatrix α γ) (i j : α) (v : γ) :
    (m.setItem i j v).default = m.default := by
  rcases hM : m.Mij with _ | a <;> simp [setItem, hM]

/-- `__setitem__` keeps the matrix well-formed. -/
theorem WF.setItem {m : LabelMatrix α γ} (hwf : m.WF) (i j : α) (v : γ) :
    (m.setItem i j v).WF := by
  rcases hM : m.Mij with _ | a
  · obtain ⟨hil, hjl⟩ := hwf.none_empty hM
    refine ⟨?_, ?_, ?_, ?_, ?_⟩ <;>
      simp [LabelMatrix.setItem, hM, hil, hjl]
  · have hnr := hwf.shape_i a hM
    have hnc := hwf.shape_j a hM
    by_cases hi : i ∈ m.ilabels <;> by_cases hj : j ∈ m.jlabels <;>
      exact ⟨
        by simp [LabelMatrix.setItem, hM, addIlabel, hi, hj,
                 List.nodup_append, hwf.nodup_i],
        by simp [LabelMatrix.setItem, hM, addIlabel, hi, hj,
                 List.nodup_append, hwf.nodup_j],
        by simp [LabelMatrix.setItem, hM, addIlabel, hi, hj],
        by simp [LabelMatrix.setItem, hM, addIlabel, hi, hj, hnr],
        by simp [LabelMatrix.setItem, hM, addIlabel, hi, hj, hnc]⟩

/-- Full read-after-write characterization of `__setitem__` followed by
`__getitem__`: reading the written pair yields the written value, any
other pair is unchanged. -/
theorem getItem_setItem {m : LabelMatrix α γ} (hwf : m.WF)
    (i' j' i j : α) (w : γ) :
    (m.setItem i' j' w).getItem i j =
      if i = i' ∧ j = j' then w else m.getItem i j := by
  rcases hM : m.Mij with _ | a
  · obtain ⟨hil, hjl⟩ := hwf.none_empty hM
    simp only [setItem, hM, getItem, hil, hjl]
    by_cases hi : i = i' <;> by_cases hj : j = j' <;> simp_all
  · have hnr := hwf.shape_i a hM
    have hnc := hwf.shape_j a hM
    have hlti : ∀ x ∈ m.ilabels, m.ilabels.indexOf x ≠ m.ilabels.length :=
      fun x hx => Nat.ne_of_lt (List.indexOf_lt_length.2 hx)
    have hltj : ∀ x ∈ m.jlabels, m.jlabels.indexOf x ≠ m.jlabels.length :=
      fun x hx => Nat.ne_of_lt (List.indexOf_lt_length.2 hx)
    simp only [setItem, hM, getItem]
    by_cases hi' : i' ∈ m.ilabels <;> by_cases hj' : j' ∈ m.jlabels <;>
      by_cases hio : i ∈ m.ilabels <;> by_cases hjo : j ∈ m.jlabels <;>
      by_cases hie : i = i' <;> by_cases hje : j = j' <;>
      simp_all [addIlabel, indexOf_append_self,
        List.indexOf_append_of_mem, List.indexOf_inj, hnr, hnc]

@[simp]
theorem setMany_nil (m : LabelMatrix α γ) : m.setMany [] = m := rfl

@[simp]
theorem setMany_cons (m : LabelMatrix α γ) (op : α × α × γ)
    (ops : List (α × α × γ)) :
    m.setMany (op :: ops) = (m.setItem op.1 op.2.1 op.2.2).setMany ops :=
  rfl

theorem WF.setMany {m : LabelMatrix α γ} (hwf : m.WF)
    (ops : List (α × α × γ)) : (m.setMany ops).WF := by
  induction ops generalizing m with
  | nil => exact hwf
  | cons op ops ih => exact ih (hwf.setItem op.1 op.2.1 op.2.2)

/-- Later writes to other pairs do not change the value read at a
pair. -/
theorem getItem_setMany_ne {m : LabelMatrix α γ} (hwf : m.WF)
    {i j : α} {ops : List (α × α × γ)}
    (hops : ∀ op ∈ ops, ¬(op.1 = i ∧ op.2.1 = j)) :
    (m.setMany ops).getItem i j = m.getItem i j := by
  induction ops generalizing m with
  | nil => rfl
  | cons op ops ih =>
      rw [setMany_cons, ih (hwf.setItem op.1 op.2.1 op.2.2)
        (fun o ho => hops o (List.mem_cons_of_mem op ho)),
        getItem_setItem hwf,
        if_neg (fun hc => hops op (List.mem_cons_self op ops)
          ⟨hc.1.symm, hc.2.symm⟩)]

omit [DecidableEq α] in
theorem init_none (il jl : List α) (d : γ) :
    init il jl (none : Option (NArr γ)) d =
      if il.length ≠ 0 ∨ jl.length ≠ 0 then
        .ok ⟨il, jl, some (NArr.filled γ il.length jl.length d), d⟩
      else .ok ⟨il, jl, none, d⟩ := rfl

omit [DecidableEq α] in
theorem init_some (il jl : List α) (a : NArr γ) (d : γ) :
    init il jl (some a) d =
      if a.nrows = il.length ∧ a.ncols = jl.length then
        .ok ⟨il, jl, some a, d⟩
      else .error "ValueError: matrix shape mismatch" := rfl

omit [DecidableEq α] in
/-- The constructor yields a well-formed matrix when the label lists
are duplicate-free. -/
theorem WF.init {il jl : List α} {Mij : Option (NArr γ)} {d : γ}
    {m0 : LabelMatrix α γ} (h0 : init il jl Mij d = .ok m0)
    (hni : il.Nodup) (hnj : jl.Nodup) : m0.WF := by
  rcases Mij with _ | a
  · rw [init_none] at h0
    by_cases h : il.length ≠ 0 ∨ jl.length ≠ 0
    · rw [if_pos h] at h0
      cases h0
      exact ⟨hni, hnj, by simp, fun a ha => by cases ha; rfl,
             fun a ha => by cases ha; rfl⟩
    · rw [if_neg h] at h0
      cases h0
      push_neg at h
      exact ⟨hni, hnj,
        fun _ => ⟨List.length_eq_zero.1 h.1, List.length_eq_zero.1 h.2⟩,
        fun a ha => (by cases ha), fun a ha => (by cases ha)⟩
  · rw [init_some] at h0
    by_cases h : a.nrows = il.length ∧ a.ncols = jl.length
    · rw [if_pos h] at h0
      cases h0
      exact ⟨hni, hnj, by simp, fun b hb => by cases hb; exact h.1,
             fun b hb => by cases hb; exact h.2⟩
    · rw [if_neg h] at h0
      cases h0

/-- Every entry of a freshly constructed matrix (no data array given)
reads as the default value. -/
theorem getItem_init {il jl : List α} {d : γ} {m0 : LabelMatrix α γ}
    (h0 : init il jl none d = .ok m0) (i j : α) :
    m0.getItem i j = d := by
  rw [init_none] at h0
  by_cases h : il.length ≠ 0 ∨ jl.length ≠ 0
  · rw [if_pos h] at h0
    cases h0
    simp only [getItem]
    split <;> rfl
  · rw [if_neg h] at h0
    cases h0
    simp only [getItem]
    split <;> rfl

omit [DecidableEq α] in
/-- Under well-formedness, the stored NumPy shape is the pair of label
counts. -/
theorem WF.shape_eq {m : LabelMatrix α γ} (hwf : m.WF) :
    m.shape = (m.ilabels.length, m.jlabels.length) := by
  rcases hM : m.Mij with _ | a
  · obtain ⟨hil, hjl⟩ := hwf.none_empty hM
    simp [shape, hM, hil, hjl]
  · simp [shape, hM, hwf.shape_i a hM, hwf.shape_j a hM]

omit [DecidableEq α] in
theorem mapM_ok {σ τ : Type} {f : σ → Except String τ} {g : σ → τ} :
    ∀ (l : List σ), (∀ p ∈ l, f p = .ok (g p)) → l.mapM f = .ok (l.map g)
  | [], _ => rfl
  | a :: l, h => by
      rw [List.mapM_cons, h a (List.mem_cons_self a l),
          mapM_ok l (fun p hp => h p (List.mem_cons_of_mem a hp))]
      rfl

/-- Reading the matrix at enumerated label positions is reading the
array at the corresponding indices. -/
theorem getItem_enum_entry {m : LabelMatrix α γ} (hwf : m.WF) {a : NArr γ}
    (hM : m.Mij = some a) {p q : Nat × α}
    (hp : p ∈ m.ilabels.enum) (hq : q ∈ m.jlabels.enum) :
    m.getItem p.2 q.2 = a.entry p.1 q.1 := by
  have hp' := List.mk_mem_enum_iff_getElem?.1 (by exact hp)
  have hq' := List.mk_mem_enum_iff_getElem?.1 (by exact hq)
  obtain ⟨hplt, hpe⟩ := List.getElem?_eq_some.1 hp'
  obtain ⟨hqlt, hqe⟩ := List.getElem?_eq_some.1 hq'
  have hpm : p.2 ∈ m.ilabels := hpe ▸ List.getElem_mem hplt
  have hqm : q.2 ∈ m.jlabels := hqe ▸ List.getElem_mem hqlt
  have hpi : m.ilabels.indexOf p.2 = p.1 := by
    rw [← hpe]; exact List.indexOf_getElem hwf.nodup_i p.1 hplt
  have hqi : m.jlabels.indexOf q.2 = q.1 := by
    rw [← hqe]; exact List.indexOf_getElem hwf.nodup_j q.1 hqlt
  simp [getItem, hpm, hqm, hM, hpi, hqi]

/-- The extracted row `self.M[i, :]` lists the matrix values of the row
label, in column-label order. -/
theorem rowVals_enum {m : LabelMatrix α γ} (hwf : m.WF) {a : NArr γ}
    (hM : m.Mij = some a) {p : Nat × α} (hp : p ∈ m.ilabels.enum) :
    rowVals a p.1 = m.jlabels.map (fun j => m.getItem p.2 j) := by
  apply List.ext_getElem
  · simp [rowVals, hwf.shape_j a hM]
  · intro k hk1 hk2
    have hkc : k < a.ncols := by simpa [rowVals] using hk1
    have hkl : k < m.jlabels.length := by simpa using hk2
    have hq : (k, m.jlabels[k]) ∈ m.jlabels.enum := by
      rw [List.mk_mem_enum_iff_getElem?]
      exact List.getElem?_eq_some.2 ⟨hkl, rfl⟩
    have := getItem_enum_entry hwf hM hp hq
    simp only [rowVals, List.getElem_map, List.getElem_range]
    rw [← this]

/-- `np.max` of a row of the matrix computes `rowMaxSpec`. -/
theorem npMax_rowMaxSpec (m : LabelMatrix α ℚ) (hj : m.jlabels ≠ [])
    (i : α) :
    npMax (m.jlabels.map (fun j => m.getItem i j)) =
      .ok (m.rowMaxSpec i) := by
  rcases hl : m.jlabels.map (fun j => m.getItem i j) with _ | ⟨x, xs⟩
  · exact absurd (List.map_eq_nil_iff.1 hl) hj
  · unfold npMax rowMaxSpec
    rw [hl]

/-- The computed tied set (column labels whose entry matches a value)
equals the column-label filter through `__getitem__`. -/
theorem argmax_row_set {m : LabelMatrix α ℚ} (hwf : m.WF) {a : NArr ℚ}
    (hM : m.Mij = some a) {p : Nat × α} (hp : p ∈ m.ilabels.enum)
    (mx : ℚ) :
    (m.jlabels.enum.filter (fun q => a.entry p.1 q.1 = mx)).map Prod.snd
      = m.jlabels.filter (fun j => m.getItem p.2 j = mx) := by
  have hcong : ∀ q ∈ m.jlabels.enum,
      (decide (a.entry p.1 q.1 = mx)) =
        (decide (m.getItem p.2 q.2 = mx)) := by
    intro q hq
    rw [getItem_enum_entry hwf hM hp hq]
  rw [List.filter_congr hcong]
  have : (fun q : Nat × α => decide (m.getItem p.2 q.2 = mx)) =
      (fun j => decide (m.getItem p.2 j = mx)) ∘ Prod.snd := rfl
  rw [this, ← List.filter_map, List.enum_map_snd]

/-- Complete characterization of `argmax(axis=0)` for a well-formed
matrix with at least one column: per row label, the set of column
labels attaining the row maximum when the threshold keeps the row and
the empty set otherwise, with the tie collapse applied. -/
theorem argmax0_eq (m : LabelMatrix α ℚ) (hwf : m.WF)
    (hj : m.jlabels ≠ []) (th : Option ℚ) (ties : Ties) :
    m.argmax0 th ties = .ok (m.ilabels.map (fun i =>
      (i, tiePick ties (if keepRow th (m.rowMaxSpec i) then
            m.jlabels.filter (fun j => m.getItem i j = m.rowMaxSpec i)
          else [])))) := by
  obtain ⟨a, hM⟩ : ∃ a, m.Mij = some a := by
    rcases hM : m.Mij with _ | a
    · exact absurd (hwf.none_empty hM).2 hj
    · exact ⟨a, rfl⟩
  have hbody : ∀ p ∈ m.ilabels.enum,
      (do
        let mx ← npMax (rowVals a p.1)
        pure (p.2, tiePick ties (if keepRow th mx then
          (m.jlabels.enum.filter
            (fun q => a.entry p.1 q.1 = mx)).map (·.2)
          else [])) : Except String (α × List α)) =
      .ok ((fun i => (i, tiePick ties (if keepRow th (m.rowMaxSpec i) then
            m.jlabels.filter (fun j => m.getItem i j = m.rowMaxSpec i)
          else []))) p.2) := by
    intro p hp
    rw [rowVals_enum hwf hM hp, npMax_rowMaxSpec m hj p.2]
    exact congrArg Except.ok
      (congrArg _ (congrArg _ (by rw [argmax_row_set hwf hM hp])))
  calc m.argmax0 th ties
      = m.ilabels.enum.mapM (fun p => do
          let mx ← npMax (rowVals a p.1)
          pure (p.2, tiePick ties (if keepRow th mx then
            (m.jlabels.enum.filter
              (fun q => a.entry p.1 q.1 = mx)).map (·.2)
            else []))) := by
        unfold argmax0
        rw [hM]
        rfl
    _ = .ok (m.ilabels.enum.map (fun p =>
          (fun i => (i, tiePick ties (if keepRow th (m.rowMaxSpec i) then
            m.jlabels.filter (fun j => m.getItem i j = m.rowMaxSpec i)
          else []))) p.2)) := mapM_ok _ hbody
    _ = _ := by
        rw [show (fun p : Nat × α =>
            (fun i => (i, tiePick ties (if keepRow th (m.rowMaxSpec i) then
              m.jlabels.filter
                (fun j => m.getItem i j = m.rowMaxSpec i)
            else []))) p.2) =
          ((fun i => (i, tiePick ties (if keepRow th (m.rowMaxSpec i) then
              m.jlabels.filter
                (fun j => m.getItem i j = m.rowMaxSpec i)
            else []))) ∘ Prod.snd) from rfl,
          ← List.map_map, List.enum_map_snd]

omit [DecidableEq α] in
theorem tiePick_all (s : List α) : tiePick Ties.all s = s := by
  simp [tiePick]

omit [DecidableEq α] in
theorem tiePick_any_length (s : List α) :
    (tiePick Ties.any s).length ≤ 1 := by
  unfold tiePick
  split
  · simp [List.length_take_le 1 s]
  · rename_i h
    push_neg at h
    have := h rfl
    omega

omit [DecidableEq α] in
theorem tiePick_subset (ties : Ties) (s : List α) :
    ∀ x ∈ tiePick ties s, x ∈ s := by
  unfold tiePick
  split
  · intro x hx
    exact List.mem_of_mem_take hx
  · intro x hx
    exact hx

end LabelMatrix

/-! ### Lemmas about `mmx_similarity_matrix` -/

theorem writeAt_same (X : Nat → Nat → ℚ) (i j : Nat) (v : ℚ) :
    writeAt X i j v i j = v := by
  simp [writeAt]

theorem writeAt_ne (X : Nat → Nat → ℚ) (i j : Nat) (v : ℚ) {r c : Nat}
    (h : ¬(r = i ∧ c = j)) : writeAt X i j v r c = X r c := by
  unfold writeAt
  rw [if_neg h]

theorem mem_take_enum_key {α : Type} {l : List α} {n : Nat} {q : Nat × α}
    (h : q ∈ l.enum.take n) : q.1 < n ∧ q ∈ l.enum := by
  obtain ⟨idx, hidx, hq⟩ := List.mem_take_iff_getElem.1 h
  have hlt : idx < l.enum.length := lt_of_lt_of_le hidx (min_le_right _ _)
  have hidxn : idx < n := lt_of_lt_of_le hidx (min_le_left _ _)
  rw [List.getElem_enum] at hq
  constructor
  · rw [← hq]
    exact hidxn
  · rw [← hq]
    have hll : idx < l.length := by simpa using hlt
    exact List.mk_mem_enum_iff_getElem?.2 (List.getElem?_eq_some.2 ⟨hll, rfl⟩)

theorem mem_take_enum_of {α : Type} {l : List α} {n j : Nat} {lj : α}
    (hj : (j, lj) ∈ l.enum) (hjn : j < n) : (j, lj) ∈ l.enum.take n := by
  have hj' := List.mk_mem_enum_iff_getElem?.1 hj
  obtain ⟨hlt, hje⟩ := List.getElem?_eq_some.1 hj'
  have hlt' : j < l.enum.length := by simpa using hlt
  refine List.mem_take_iff_getElem.2 ⟨j, lt_min hjn hlt', ?_⟩
  rw [List.getElem_enum, hje]

/-- Keys coincide in the enumeration only at equal entries. -/
theorem enum_key_inj {α : Type} {l : List α} {p q : Nat × α}
    (hp : p ∈ l.enum) (hq : q ∈ l.enum) (h : p.1 = q.1) : p = q := by
  have hp' := List.mem_enum_iff_getElem?.1 hp
  have hq' := List.mem_enum_iff_getElem?.1 hq
  rcases p with ⟨n, x⟩
  rcases q with ⟨n', y⟩
  cases h
  simp only at hp' hq'
  rw [hp'] at hq'
  cases hq'
  rfl

/-- A row-fill loop (asymmetric case) leaves alien cells unchanged. -/
theorem rowNS_untouched {α : Type} (cmp : α → α → ℚ) (lw : α) (w : Nat) :
    ∀ (M : List (Nat × α)) (X : Nat → Nat → ℚ) {r c : Nat},
    (r ≠ w ∨ ∀ q ∈ M, c ≠ q.1) →
    (M.foldl (fun X q => writeAt X w q.1 (cmp lw q.2)) X) r c = X r c
  | [], X, r, c, _ => rfl
  | q :: M, X, r, c, h => by
      rw [List.foldl_cons,
        rowNS_untouched cmp lw w M _
          (h.imp id (fun hc q' hq' => hc q' (List.mem_cons_of_mem q hq'))),
        writeAt_ne]
      rcases h with h | h
      · exact fun hc => h hc.1
      · exact fun hc => h q (List.mem_cons_self q M) hc.2

/-- In a duplicate-free keyed list, a tail element never shares the
head key. -/
theorem key_not_mem {α : Type} {q : Nat × α} {M : List (Nat × α)}
    (hnd : (List.map Prod.fst (q :: M)).Nodup) {p : Nat × α} (hp : p ∈ M) :
    p.1 ≠ q.1 := by
  intro he
  have h1 : (∀ x : α, (q.1, x) ∉ M) ∧ (M.map Prod.fst).Nodup := by
    simpa using hnd
  exact h1.1 p.2 (by rw [← he]; exact hp)

/-- A row-fill loop (asymmetric case) writes the compared value at its
own row and a listed column. -/
theorem rowNS_hit {α : Type} (cmp : α → α → ℚ) (lw : α) (w : Nat) :
    ∀ (M : List (Nat × α)), (M.map Prod.fst).Nodup →
    ∀ {c : Nat} {lc : α}, (c, lc) ∈ M → ∀ (X : Nat → Nat → ℚ),
    (M.foldl (fun X q => writeAt X w q.1 (cmp lw q.2)) X) w c = cmp lw lc
  | [], _, c, lc, hc, X => absurd hc (List.not_mem_nil _)
  | q :: M, hnd, c, lc, hc, X => by
      by_cases hqc : q.1 = c
      · have hq : q = (c, lc) := by
          rcases List.mem_cons.1 hc with h | h
          · exact h.symm
          · exact absurd hqc.symm (key_not_mem hnd h)
        have h1 := @rowNS_untouched α cmp lw w M
          (writeAt X w q.1 (cmp lw q.2)) w c
          (Or.inr (fun q' hq' hce =>
            key_not_mem hnd hq' (hqc.trans hce).symm))
        rw [List.foldl_cons, h1, hq]
        exact writeAt_same X w c (cmp lw lc)
      · have hc' : (c, lc) ∈ M := by
          rcases List.mem_cons.1 hc with h | h
          · exact absurd (by rw [← h]) hqc
          · exact h
        rw [List.foldl_cons]
        exact rowNS_hit cmp lw w M (List.nodup_cons.1 (by simpa using hnd)).2
          hc' _

/-- Rows not listed in the outer loop are never written (asymmetric
fill). -/
theorem fillNS_outer_untouched {α : Type} (cmp : α → α → ℚ)
    (labels : List α) :
    ∀ (L : List (Nat × α)) (X : Nat → Nat → ℚ) {r c : Nat},
    (∀ p ∈ L, r ≠ p.1) →
    (L.foldl (fun X p =>
      labels.enum.foldl (fun X q => writeAt X p.1 q.1 (cmp p.2 q.2)) X)
      X) r c = X r c
  | [], X, r, c, _ => rfl
  | p :: L, X, r, c, h => by
      rw [List.foldl_cons,
        fillNS_outer_untouched cmp labels L _
          (fun p' hp' => h p' (List.mem_cons_of_mem p hp')),
        rowNS_untouched cmp p.2 p.1 labels.enum X
          (Or.inl (h p (List.mem_cons_self p L)))]

/-- The full (asymmetric) fill writes `cmp` at every listed pair. -/
theorem fillNS_at {α : Type} (cmp : α → α → ℚ) (labels : List α) :
    ∀ (L : List (Nat × α)), (L.map Prod.fst).Nodup →
    ∀ {i : Nat} {li : α}, (i, li) ∈ L →
    ∀ {j : Nat} {lj : α}, (j, lj) ∈ labels.enum →
    ∀ (X : Nat → Nat → ℚ),
    (L.foldl (fun X p =>
      labels.enum.foldl (fun X q => writeAt X p.1 q.1 (cmp p.2 q.2)) X)
      X) i j = cmp li lj
  | [], _, i, li, hi, _, _, _, _ => absurd hi (List.not_mem_nil _)
  | p :: L, hnd, i, li, hi, j, lj, hj, X => by
      by_cases hpi : p.1 = i
      · have hp : p = (i, li) := by
          rcases List.mem_cons.1 hi with h | h
          · exact h.symm
          · exact absurd hpi.symm (key_not_mem hnd h)
        have h1 := @fillNS_outer_untouched α cmp labels L
          (labels.enum.foldl (fun X q => writeAt X p.1 q.1 (cmp p.2 q.2)) X)
          i j
          (fun p' hp' hip' => key_not_mem hnd hp' (hpi.trans hip').symm)
        rw [List.foldl_cons, h1, hp]
        exact rowNS_hit cmp li i labels.enum
          (by rw [List.enum_map_fst]; exact List.nodup_range _) hj X
      · have hi' : (i, li) ∈ L := by
          rcases List.mem_cons.1 hi with h | h
          · exact absurd (by rw [← h]) hpi
          · exact h
        rw [List.foldl_cons]
        exact fillNS_at cmp labels L
          (List.nodup_cons.1 (by simpa using hnd)).2 hi' hj _

theorem enum_fst_nodup {α : Type} (l : List α) :
    (l.enum.map Prod.fst).Nodup := by
  rw [List.enum_map_fst]
  exact List.nodup_range _

theorem take_enum_fst_nodup {α : Type} (l : List α) (n : Nat) :
    ((l.enum.take n).map Prod.fst).Nodup := by
  rw [List.map_take, List.enum_map_fst, List.take_range]
  exact List.nodup_range _

/-- A row-fill loop (symmetric case) leaves cells outside its row and
its mirrored column unchanged. -/
theorem rowS_untouched {α : Type} (cmp : α → α → ℚ) (lw : α) (w : Nat) :
    ∀ (M : List (Nat × α)) (X : Nat → Nat → ℚ) {r c : Nat},
    (∀ q ∈ M, ¬(r = w ∧ c = q.1) ∧ ¬(r = q.1 ∧ c = w)) →
    (M.foldl (fun X q => writeAt (writeAt X w q.1 (cmp lw q.2)) q.1 w
      ((writeAt X w q.1 (cmp lw q.2)) w q.1)) X) r c = X r c
  | [], X, r, c, _ => rfl
  | q :: M, X, r, c, h => by
      rw [List.foldl_cons,
        rowS_untouched cmp lw w M _
          (fun q' hq' => h q' (List.mem_cons_of_mem q hq')),
        writeAt_ne _ _ _ _ (h q (List.mem_cons_self q M)).2,
        writeAt_ne _ _ _ _ (h q (List.mem_cons_self q M)).1]

/-- A symmetric row-fill for row `w` writes `cmp lw lc` at `(w, c)` for
every listed column `c ≠ w`. -/
theorem rowS_wc {α : Type} (cmp : α → α → ℚ) (lw : α) (w : Nat) :
    ∀ (M : List (Nat × α)), (M.map Prod.fst).Nodup →
    ∀ {c : Nat} {lc : α}, (c, lc) ∈ M → c ≠ w → ∀ (X : Nat → Nat → ℚ),
    (M.foldl (fun X q => writeAt (writeAt X w q.1 (cmp lw q.2)) q.1 w
      ((writeAt X w q.1 (cmp lw q.2)) w q.1)) X) w c = cmp lw lc
  | [], _, c, lc, hc, _, X => absurd hc (List.not_mem_nil _)
  | q :: M, hnd, c, lc, hc, hcw, X => by
      by_cases hqc : q.1 = c
      · have hq : q = (c, lc) := by
          rcases List.mem_cons.1 hc with h | h
          · exact h.symm
          · exact absurd hqc.symm (key_not_mem hnd h)
        have h1 := @rowS_untouched α cmp lw w M
          (writeAt (writeAt X w q.1 (cmp lw q.2)) q.1 w
            ((writeAt X w q.1 (cmp lw q.2)) w q.1)) w c
          (fun q' hq' => ⟨fun hcon =>
              key_not_mem hnd hq' (hqc.trans hcon.2).symm,
            fun hcon => hcw hcon.2⟩)
        rw [List.foldl_cons, h1, hq]
        rw [writeAt_ne _ _ _ _ (fun hcon => hcw hcon.1.symm)]
        exact writeAt_same X w c (cmp lw lc)
      · have hc' : (c, lc) ∈ M := by
          rcases List.mem_cons.1 hc with h | h
          · exact absurd (by rw [← h]) hqc
          · exact h
        rw [List.foldl_cons,
          rowS_wc cmp lw w M (List.nodup_cons.1 (by simpa using hnd)).2
            hc' hcw _]

/-- A symmetric row-fill for row `w` mirrors `cmp lw lr` into `(r, w)`
for every listed row `r ≠ w`. -/
theorem rowS_rw {α : Type} (cmp : α → α → ℚ) (lw : α) (w : Nat) :
    ∀ (M : List (Nat × α)), (M.map Prod.fst).Nodup →
    ∀ {r : Nat} {lr : α}, (r, lr) ∈ M → r ≠ w → ∀ (X : Nat → Nat → ℚ),
    (M.foldl (fun X q => writeAt (writeAt X w q.1 (cmp lw q.2)) q.1 w
      ((writeAt X w q.1 (cmp lw q.2)) w q.1)) X) r w = cmp lw lr
  | [], _, r, lr, hr, _, X => absurd hr (List.not_mem_nil _)
  | q :: M, hnd, r, lr, hr, hrw, X => by
      by_cases hqr : q.1 = r
      · have hq : q = (r, lr) := by
          rcases List.mem_cons.1 hr with h | h
          · exact h.symm
          · exact absurd hqr.symm (key_not_mem hnd h)
        have h1 := @rowS_untouched α cmp lw w M
          (writeAt (writeAt X w q.1 (cmp lw q.2)) q.1 w
            ((writeAt X w q.1 (cmp lw q.2)) w q.1)) r w
          (fun q' hq' => ⟨fun hcon => hrw hcon.1,
            fun hcon => key_not_mem hnd hq' (hqr.trans hcon.1).symm⟩)
        rw [List.foldl_cons, h1, hq]
        rw [writeAt_same, writeAt_same]
      · have hr' : (r, lr) ∈ M := by
          rcases List.mem_cons.1 hr with h | h
          · exact absurd (by rw [← h]) hqr
          · exact h
        rw [List.foldl_cons,
          rowS_rw cmp lw w M (List.nodup_cons.1 (by simpa using hnd)).2
            hr' hrw _]

/-- A symmetric row-fill for row `w` writes `cmp lw lw` on the
diagonal when `w` itself is listed. -/
theorem rowS_ww {α : Type} (cmp : α → α → ℚ) (lw : α) (w : Nat) :
    ∀ (M : List (Nat × α)), (M.map Prod.fst).Nodup →
    ∀ {lw' : α}, (w, lw') ∈ M → ∀ (X : Nat → Nat → ℚ),
    (M.foldl (fun X q => writeAt (writeAt X w q.1 (cmp lw q.2)) q.1 w
      ((writeAt X w q.1 (cmp lw q.2)) w q.1)) X) w w = cmp lw lw'
  | [], _, lw', hw, X => absurd hw (List.not_mem_nil _)
  | q :: M, hnd, lw', hw, X => by
      by_cases hqw : q.1 = w
      · have hq : q = (w, lw') := by
          rcases List.mem_cons.1 hw with h | h
          · exact h.symm
          · exact absurd hqw.symm (key_not_mem hnd h)
        have h1 := @rowS_untouched α cmp lw w M
          (writeAt (writeAt X w q.1 (cmp lw q.2)) q.1 w
            ((writeAt X w q.1 (cmp lw q.2)) w q.1)) w w
          (fun q' hq' => ⟨fun hcon =>
              key_not_mem hnd hq' (hqw.trans hcon.2).symm,
            fun hcon => key_not_mem hnd hq' (hqw.trans hcon.1).symm⟩)
        rw [List.foldl_cons, h1, hq]
        rw [writeAt_same, writeAt_same]
      · have hw' : (w, lw') ∈ M := by
          rcases List.mem_cons.1 hw with h | h
          · exact absurd (by rw [← h]) hqw
          · exact h
        rw [List.foldl_cons,
          rowS_ww cmp lw w M (List.nodup_cons.1 (by simpa using hnd)).2
            hw' _]

/-- Rows whose index is not `max r c` never write the cell `(r, c)`
(symmetric fill). -/
theorem fillS_outer_untouched {α : Type} (cmp : α → α → ℚ)
    (labels : List α) :
    ∀ (L : List (Nat × α)) (X : Nat → Nat → ℚ) {r c : Nat},
    (∀ p ∈ L, p.1 ≠ max r c) →
    (L.foldl (fun X p => (labels.enum.take (p.1 + 1)).foldl
      (fun X q => writeAt (writeAt X p.1 q.1 (cmp p.2 q.2)) q.1 p.1
        ((writeAt X p.1 q.1 (cmp p.2 q.2)) p.1 q.1)) X) X) r c = X r c
  | [], X, r, c, _ => rfl
  | p :: L, X, r, c, h => by
      rw [List.foldl_cons,
        fillS_outer_untouched cmp labels L _
          (fun p' hp' => h p' (List.mem_cons_of_mem p hp'))]
      apply rowS_untouched
      intro q hq
      have hk := (mem_take_enum_key hq).1
      have hp := h p (List.mem_cons_self p L)
      constructor
      · rintro ⟨h1, h2⟩
        exact hp (by omega)
      · rintro ⟨h1, h2⟩
        exact hp (by omega)

/-- The symmetric fill writes, at a listed cell `(i, j)`, the compared
value in the lower-triangle orientation. -/
theorem fillS_outer_at {α : Type} (cmp : α → α → ℚ) (labels : List α) :
    ∀ (L : List (Nat × α)), (∀ p ∈ L, p ∈ labels.enum) →
    (L.map Prod.fst).Nodup →
    ∀ {i : Nat} {li : α} {j : Nat} {lj : α},
    (i, li) ∈ labels.enum → (j, lj) ∈ labels.enum →
    (∃ p ∈ L, p.1 = max i j) → ∀ (X : Nat → Nat → ℚ),
    (L.foldl (fun X p => (labels.enum.take (p.1 + 1)).foldl
      (fun X q => writeAt (writeAt X p.1 q.1 (cmp p.2 q.2)) q.1 p.1
        ((writeAt X p.1 q.1 (cmp p.2 q.2)) p.1 q.1)) X) X) i j =
      if j ≤ i then cmp li lj else cmp lj li
  | [], _, _, i, li, j, lj, _, _, hex, X => absurd hex (by simp)
  | p :: L, hL, hnd, i, li, j, lj, hi, hj, hex, X => by
      by_cases hpm : p.1 = max i j
      · have hrest := @fillS_outer_untouched α cmp labels L
          ((labels.enum.take (p.1 + 1)).foldl
            (fun X q => writeAt (writeAt X p.1 q.1 (cmp p.2 q.2)) q.1 p.1
              ((writeAt X p.1 q.1 (cmp p.2 q.2)) p.1 q.1)) X) i j
          (fun p' hp' hpe =>
            key_not_mem hnd hp' (hpe.trans hpm.symm))
        rw [List.foldl_cons, hrest]
        by_cases hji : j ≤ i
        · rw [if_pos hji]
          have hp1 : p.1 = i := by omega
          have hpp : p = (i, li) :=
            enum_key_inj (hL p (List.mem_cons_self p L)) hi hp1
          by_cases hjeq : j = i
          · have hlij : (j, lj) = (i, li) := enum_key_inj hj hi hjeq
            have hlj : lj = li := (Prod.mk.injEq _ _ _ _ ▸ hlij).2
            rw [hpp, hjeq, hlj]
            exact rowS_ww cmp li i _ (take_enum_fst_nodup labels (i + 1))
              (mem_take_enum_of hi (by omega)) X
          · rw [hpp]
            exact rowS_wc cmp li i _ (take_enum_fst_nodup labels (i + 1))
              (mem_take_enum_of hj (by omega)) hjeq X
        · rw [if_neg hji]
          have hp1 : p.1 = j := by omega
          have hpp : p = (j, lj) :=
            enum_key_inj (hL p (List.mem_cons_self p L)) hj hp1
          rw [hpp]
          exact rowS_rw cmp lj j _ (take_enum_fst_nodup labels (j + 1))
            (mem_take_enum_of hi (by omega)) (by omega) X
      · have hex' : ∃ p' ∈ L, p'.1 = max i j := by
          rcases hex with ⟨p', hp', he⟩
          rcases List.mem_cons.1 hp' with h | h
          · exact absurd (h ▸ he) hpm
          · exact ⟨p', h, he⟩
        rw [List.foldl_cons]
        exact fillS_outer_at cmp labels L
          (fun p' hp' => hL p' (List.mem_cons_of_mem p hp'))
          (List.nodup_cons.1 (by simpa using hnd)).2 hi hj hex' _

/-- The symmetric run of `mmx_similarity_matrix` produces, at every
in-range cell, the comparison in lower-triangle orientation. -/
theorem mmxTrue_at {α : Type} (cmp : α → α → ℚ) (labels : List α)
    {i : Nat} {li : α} {j : Nat} {lj : α}
    (hi : (i, li) ∈ labels.enum) (hj : (j, lj) ∈ labels.enum)
    (X0 : Nat → Nat → ℚ) :
    mmxSimilarityMatrix true cmp labels X0 i j =
      if j ≤ i then cmp li lj else cmp lj li := by
  have hi' := List.mk_mem_enum_iff_getElem?.1 hi
  have hj' := List.mk_mem_enum_iff_getElem?.1 hj
  obtain ⟨hilt, _⟩ := List.getElem?_eq_some.1 hi'
  obtain ⟨hjlt, _⟩ := List.getElem?_eq_some.1 hj'
  have hm : max i j < labels.length := by omega
  have hex : ∃ p ∈ labels.enum, p.1 = max i j :=
    ⟨(max i j, labels.get ⟨max i j, hm⟩),
      List.mk_mem_enum_iff_getElem?.2
        (List.getElem?_eq_some.2 ⟨hm, rfl⟩), rfl⟩
  exact fillS_outer_at cmp labels labels.enum (fun p hp => hp)
    (enum_fst_nodup labels) hi hj hex X0

/-- The asymmetric run of `mmx_similarity_matrix` computes every
ordered comparison. -/
theorem mmxFalse_at {α : Type} (cmp : α → α → ℚ) (labels : List α)
    {i : Nat} {li : α} {j : Nat} {lj : α}
    (hi : (i, li) ∈ labels.enum) (hj : (j, lj) ∈ labels.enum)
    (X0 : Nat → Nat → ℚ) :
    mmxSimilarityMatrix false cmp labels X0 i j = cmp li lj :=
  fillNS_at cmp labels labels.enum (enum_fst_nodup labels) hi hj X0

/-! ### Lemmas about `to_annotation` decoding -/

theorem decodeClusters_cons (mo uri : String) (c : List Node)
    (cs : List (List Node)) (k : Nat) :
    decodeClusters mo uri (c :: cs) k =
      if 1 < (c.filter Node.isIdent).length then
        .error "Cluster contains more than one identity."
      else
        match decodeClusters mo uri cs
            (clusterId (c.filter Node.isIdent) k).2 with
        | .error e => .error e
        | .ok rest =>
            .ok ((c.filter (Node.isTrackOf uri mo)).filterMap
              (entryOf (clusterId (c.filter Node.isIdent) k).1) ++ rest) :=
  rfl

theorem assignedIds_cons (c : List Node) (cs : List (List Node)) (k : Nat) :
    assignedIds (c :: cs) k =
      (clusterId (c.filter Node.isIdent) k).1 ::
        assignedIds cs (clusterId (c.filter Node.isIdent) k).2 := rfl

/-- Decoding fails exactly when some cluster holds two or more identity
items. -/
theorem decodeClusters_error_iff (mo uri : String) :
    ∀ (comps : List (List Node)) (k : Nat),
    (∃ e, decodeClusters mo uri comps k = .error e) ↔
      ∃ c ∈ comps, 1 < numIdents c
  | [], k => by simp [decodeClusters]
  | c :: cs, k => by
      rw [decodeClusters_cons]
      by_cases hamb : 1 < (c.filter Node.isIdent).length
      · rw [if_pos hamb]
        exact ⟨fun _ => ⟨c, List.mem_cons_self c cs, hamb⟩,
          fun _ => ⟨_, rfl⟩⟩
      · rw [if_neg hamb]
        rcases hrec : decodeClusters mo uri cs
            (clusterId (c.filter Node.isIdent) k).2 with e | rest
        · constructor
          · intro _
            obtain ⟨c', hc', h⟩ :=
              (decodeClusters_error_iff mo uri cs
                (clusterId (c.filter Node.isIdent) k).2).1 ⟨e, hrec⟩
            exact ⟨c', List.mem_cons_of_mem c hc', h⟩
          · intro _
            exact ⟨e, rfl⟩
        · constructor
          · rintro ⟨e, he⟩
            cases he
          · rintro ⟨c', hc', h⟩
            rcases List.mem_cons.1 hc' with h' | h'
            · exact absurd h (by rw [h']; exact not_lt.2 (not_lt.1 hamb))
            · obtain ⟨e, he⟩ :=
                (decodeClusters_error_iff mo uri cs
                  (clusterId (c.filter Node.isIdent) k).2).2 ⟨c', h', h⟩
              rw [he] at hrec
              cases hrec

/-- On success, every track node of the right document and modality in
cluster `n` yields an entry labeled with the cluster identity. -/
theorem decodeClusters_mem (mo uri : String) :
    ∀ (comps : List (List Node)) (k : Nat) (es : List TrackEntry),
    decodeClusters mo uri comps k = .ok es →
    ∀ (n : Nat) (hn : n < comps.length) (seg tn : Nat),
    Node.track uri mo seg tn ∈ comps.get ⟨n, hn⟩ →
    (⟨seg, tn, (assignedIds comps k).getD n (.unknown 0)⟩ : TrackEntry) ∈ es
  | [], k, es, hok, n, hn, seg, tn, hmem => absurd hn (by simp)
  | c :: cs, k, es, hok, n, hn, seg, tn, hmem => by
      rw [decodeClusters_cons] at hok
      by_cases hamb : 1 < (c.filter Node.isIdent).length
      · rw [if_pos hamb] at hok
        cases hok
      · rw [if_neg hamb] at hok
        rcases hrec : decodeClusters mo uri cs
            (clusterId (c.filter Node.isIdent) k).2 with e | rest
        · rw [hrec] at hok
          cases hok
        · rw [hrec] at hok
          cases hok
          cases n with
          | zero =>
              apply List.mem_append_left
              apply List.mem_filterMap.2
              refine ⟨Node.track uri mo seg tn, List.mem_filter.2
                ⟨hmem, by simp [Node.isTrackOf]⟩, ?_⟩
              simp [entryOf, assignedIds_cons]
          | succ n =>
              apply List.mem_append_right
              have h := decodeClusters_mem mo uri cs
                (clusterId (c.filter Node.isIdent) k).2 rest hrec n
                (by simpa using hn) seg tn (by simpa using hmem)
              simpa [assignedIds_cons] using h

/-- The identity assigned to cluster `n`: the known identifier when the
cluster holds exactly one identity item, an unknown when it holds
none. -/
theorem assignedIds_spec :
    ∀ (comps : List (List Node)) (k : Nat) (n : Nat)
      (hn : n < comps.length),
    (numIdents (comps.get ⟨n, hn⟩) = 1 →
      ∃ s, (comps.get ⟨n, hn⟩).filter Node.isIdent = [Node.ident s]
        ∧ (assignedIds comps k).getD n (.unknown 0) = .known s)
    ∧ (numIdents (comps.get ⟨n, hn⟩) = 0 →
      ∃ kk, (assignedIds comps k).getD n (.unknown 0) = .unknown kk)
  | [], k, n, hn => absurd hn (by simp)
  | c :: cs, k, 0, hn => by
      have hcg : (c :: cs).get ⟨0, hn⟩ = c := rfl
      rw [hcg]
      constructor
      · intro h1
        obtain ⟨x, hx⟩ := List.length_eq_one.1 h1
        have hxmem : x ∈ c.filter Node.isIdent := by
          rw [hx]
          exact List.mem_singleton_self x
        have hxid := (List.mem_filter.1 hxmem).2
        cases x with
        | track u mo seg tn => simp [Node.isIdent] at hxid
        | ident s =>
            exact ⟨s, hx, by simp [assignedIds_cons, clusterId, hx]⟩
      · intro h0
        have hnil : c.filter Node.isIdent = [] := List.length_eq_zero.1 h0
        refine ⟨k, ?_⟩
        simp [assignedIds_cons, clusterId, hnil]
  | c :: cs, k, n + 1, hn => by
      have h := assignedIds_spec cs
        (clusterId (c.filter Node.isIdent) k).2 n (by simpa using hn)
      simpa [assignedIds_cons] using h

/-- Every unknown identity minted from counter `k` onwards has index at
least `k`. -/
theorem assignedIds_lb :
    ∀ (comps : List (List Node)) (k : Nat) (p : PersonId),
    p ∈ assignedIds comps k → ∀ t, p = .unknown t → k ≤ t
  | [], k, p, hp, t, he => absurd hp (List.not_mem_nil p)
  | c :: cs, k, p, hp, t, he => by
      rw [assignedIds_cons] at hp
      rcases List.mem_cons.1 hp with h | h
      · rcases hcl : c.filter Node.isIdent with _ | ⟨x, xs⟩
        · rw [hcl] at h
          simp only [clusterId] at h
          rw [h] at he
          cases he
          exact le_refl k
        · cases x with
          | ident s =>
              rw [hcl] at h
              simp only [clusterId] at h
              rw [h] at he
              cases he
          | track u mo seg tn =>
              rw [hcl] at h
              simp only [clusterId] at h
              rw [h] at he
              cases he
              exact le_refl k
      · have hk : k ≤ (clusterId (c.filter Node.isIdent) k).2 := by
          unfold clusterId
          split
          · exact le_refl k
          · exact Nat.le_succ k
        exact le_trans hk (assignedIds_lb cs _ p h t he)

/-- Freshly minted unknown identities are pairwise distinct. -/
theorem assignedIds_fresh :
    ∀ (comps : List (List Node)) (k : Nat),
    (assignedIds comps k).Pairwise
      (fun p q => ∀ t, p = .unknown t → q ≠ .unknown t)
  | [], k => List.Pairwise.nil
  | c :: cs, k => by
      rw [assignedIds_cons]
      refine List.Pairwise.cons ?_ (assignedIds_fresh cs _)
      intro q hq t hp hqe
      rcases hcl : c.filter Node.isIdent with _ | ⟨x, xs⟩
      · rw [hcl] at hp hq
        simp only [clusterId] at hp hq
        have hkt : k = t := by injection hp
        have := assignedIds_lb cs (k + 1) q hq t hqe
        omega
      · cases x with
        | ident s =>
            rw [hcl] at hp
            simp only [clusterId] at hp
            cases hp
        | track u mo seg tn =>
            rw [hcl] at hp hq
            simp only [clusterId] at hp hq
            have hkt : k = t := by injection hp
            have := assignedIds_lb cs (k + 1) q hq t hqe
            omega

theorem mW_wf : mW.WF :=
  LabelMatrix.WF.init
    (show LabelMatrix.init ["a"] ["b"] none (5 : ℚ) = .ok mW from rfl)
    (by decide) (by decide)

/-- C4: for every `PairwiseMatrix` built by the constructor with no
data array, any pair never touched by later sets reads as the default
value; and a pair that was set reads back the written value, both
immediately and after any later sets of other pairs. -/
theorem C4_get_set_semantics {α γ : Type} [DecidableEq α]
    (il jl : List α) (d : γ) (m0 : LabelMatrix α γ)
    (h0 : LabelMatrix.init il jl none d = .ok m0)
    (hni : il.Nodup) (hnj : jl.Nodup)
    (i j : α) (ops : List (α × α × γ))
    (hops : ∀ op ∈ ops, ¬(op.1 = i ∧ op.2.1 = j)) :
    (m0.setMany ops).getItem i j = d
    ∧ ∀ (m : LabelMatrix α γ), m.WF → ∀ v : γ,
        ((m.setItem i j v).setMany ops).getItem i j = v := by
  have hwf0 := LabelMatrix.WF.init h0 hni hnj
  constructor
  · rw [LabelMatrix.getItem_setMany_ne hwf0 hops,
        LabelMatrix.getItem_init h0]
  · intro m hwf v
    rw [LabelMatrix.getItem_setMany_ne (hwf.setItem i j v) hops,
        LabelMatrix.getItem_setItem_same]

theorem C4_witness :
    (((mW.setMany [("a", "c", (2 : ℚ))]).getItem "a" "b" = 5)
      ∧ (((mW.setItem "a" "b" (3 : ℚ)).setMany
            [("a", "c", (2 : ℚ))]).getItem "a" "b" = 3)) := by
  have h := C4_get_set_semantics ["a"] ["b"] (5 : ℚ) mW rfl
    (by decide) (by decide) "a" "b" [("a", "c", (2 : ℚ))] (by decide)
  exact ⟨h.1, h.2 mW mW_wf 3⟩

/-- C5: `__setitem__` preserves the well-formedness invariant (the
stored NumPy shape equals the pair of label counts, labels mapped to
insertion-order indices), and setting an unseen row (resp. column)
label appends exactly that label, the fresh entries other than the one
written all reading as the default value. -/
theorem C5_shape_invariant {α γ : Type} [DecidableEq α]
    (m : LabelMatrix α γ) (hwf : m.WF) (i j : α) (v : γ) :
    (m.setItem i j v).WF
    ∧ (m.setItem i j v).shape =
        ((m.setItem i j v).ilabels.length,
         (m.setItem i j v).jlabels.length)
    ∧ (i ∉ m.ilabels →
        (m.setItem i j v).ilabels = m.ilabels ++ [i]
        ∧ ∀ j₀ ∈ m.jlabels, j₀ ≠ j →
            (m.setItem i j v).getItem i j₀ = m.default)
    ∧ (j ∉ m.jlabels →
        (m.setItem i j v).jlabels = m.jlabels ++ [j]
        ∧ ∀ i₀ ∈ m.ilabels, i₀ ≠ i →
            (m.setItem i j v).getItem i₀ j = m.default) := by
  refine ⟨hwf.setItem i j v, (hwf.setItem i j v).shape_eq, ?_, ?_⟩
  · intro hi
    refine ⟨by rw [LabelMatrix.setItem_ilabels m i j v hwf, if_neg hi], ?_⟩
    intro j₀ _ hne
    rw [LabelMatrix.getItem_setItem hwf, if_neg (fun hc => hne hc.2)]
    simp [LabelMatrix.getItem, hi]
  · intro hj
    refine ⟨by rw [LabelMatrix.setItem_jlabels m i j v hwf, if_neg hj], ?_⟩
    intro i₀ _ hne
    rw [LabelMatrix.getItem_setItem hwf, if_neg (fun hc => hne hc.1)]
    simp [LabelMatrix.getItem, hj]

theorem C5_witness :
    ((mW.setItem "c" "d" (7 : ℚ)).ilabels = ["a", "c"]
      ∧ (mW.setItem "c" "d" (7 : ℚ)).getItem "c" "b" = 5) := by
  have h := C5_shape_invariant mW mW_wf "c" "d" (7 : ℚ)
  have h3 := h.2.2.1 (by decide)
  exact ⟨h3.1, h3.2 "b" (by decide) (by decide)⟩

/-- C6 counterexample: transposing `c6m` twice does not return a matrix
equal to `c6m` -- the default value comes back as the constructor
default `0.` rather than the original `1`. -/
theorem C6_counterexample :
    (c6m.transpose.bind LabelMatrix.transpose).map LabelMatrix.default ≠
      .ok c6m.default := by
  intro h
  exact absurd (Except.ok.inj h) (by decide)

/-- C6 (amended): for every `PairwiseMatrix` whose value array is
present, transposing twice preserves the row labels, the column labels
and the stored values, but resets the default value to the constructor
default `0.` (and on a fully empty matrix the transpose raises). -/
theorem C6_double_transpose {α : Type}
    (m : LabelMatrix α ℚ) (a : NArr ℚ) (ha : m.Mij = some a) :
    m.transpose.bind LabelMatrix.transpose =
      .ok ⟨m.ilabels, m.jlabels, some a, 0⟩ := by
  simp [LabelMatrix.transpose, ha, Except.bind, NArr.transp_transp]

theorem C6_witness :
    c6m.transpose.bind LabelMatrix.transpose =
      .ok ⟨["a"], ["b"], some ⟨1, 1, fun _ _ => (2 : ℚ)⟩, 0⟩ :=
  C6_double_transpose c6m ⟨1, 1, fun _ _ => 2⟩ rfl

/-- C9: `__delitem__` raises `NotImplementedError` on every matrix and
every key, so the deletions performed by
`ContiguousConstraintMixin._update_constraint` make it raise as soon as
a consumed label differs from the new label. -/
theorem C9_deletion_unimplemented {β : Type} [DecidableEq β]
    (m : LabelMatrix β Bool) (key : β × Option β)
    (contiguous : LabelMatrix β Bool) (labels : List β) (newLabel l : β)
    (merged : List β) (inter : β → β → Bool)
    (hl : l ∈ merged) (hne : l ≠ newLabel) :
    m.delItem key = .error "NotImplementedError"
    ∧ updateContiguityConstraint contiguous labels newLabel merged inter =
        .error "NotImplementedError" := by
  refine ⟨rfl, ?_⟩
  have hfind : ∃ x, merged.find? (fun l => decide (l ≠ newLabel)) = some x := by
    rw [← Option.isSome_iff_exists, List.find?_isSome]
    exact ⟨l, hl, by simpa using hne⟩
  obtain ⟨x, hx⟩ := hfind
  simp only [updateContiguityConstraint]
  rw [hx]
  rfl

theorem C9_witness :
    ((⟨[], [], none, false⟩ : LabelMatrix String Bool).delItem ("a", none) =
        .error "NotImplementedError")
    ∧ updateContiguityConstraint (⟨[], [], none, false⟩ : LabelMatrix String Bool)
        ["n"] "n" ["x"] (fun _ _ => true) = .error "NotImplementedError" :=
  C9_deletion_unimplemented _ _ _ _ _ "x" _ _ (by decide) (by decide)

/-- C1: decoding an ILP solution takes each connected component of the
graph with an edge for every truthy `x[I,J]` as one cluster; decoding
fails exactly when some component holds two or more identity items; on
success, every matching track node of component `n` is labeled with
that component's assigned identity, which is the identifier of the
single identity item when the component holds exactly one, a freshly
minted unknown when it holds none, and the minted unknowns are
pairwise distinct. -/
theorem C1_decode_solution (sol : Solution) (modality uri : String) :
    ((∃ e, decodeSolution sol modality uri = .error e) ↔
      ∃ c ∈ componentsOf sol, 1 < numIdents c)
    ∧ (∀ es, decodeSolution sol modality uri = .ok es →
        ∀ (n : Nat) (hn : n < (componentsOf sol).length) (seg tn : Nat),
        Node.track uri modality seg tn ∈ (componentsOf sol).get ⟨n, hn⟩ →
        (⟨seg, tn, (assignedIds (componentsOf sol) 0).getD n
            (.unknown 0)⟩ : TrackEntry) ∈ es)
    ∧ (∀ (n : Nat) (hn : n < (componentsOf sol).length),
        (numIdents ((componentsOf sol).get ⟨n, hn⟩) = 1 →
          ∃ s, ((componentsOf sol).get ⟨n, hn⟩).filter Node.isIdent =
              [Node.ident s]
            ∧ (assignedIds (componentsOf sol) 0).getD n (.unknown 0) =
                .known s)
        ∧ (numIdents ((componentsOf sol).get ⟨n, hn⟩) = 0 →
          ∃ kk, (assignedIds (componentsOf sol) 0).getD n (.unknown 0) =
              .unknown kk))
    ∧ (assignedIds (componentsOf sol) 0).Pairwise
        (fun p q => ∀ t, p = .unknown t → q ≠ .unknown t) :=
  ⟨decodeClusters_error_iff modality uri (componentsOf sol) 0,
    fun es hok n hn seg tn hmem =>
      decodeClusters_mem modality uri (componentsOf sol) 0 es hok
        n hn seg tn hmem,
    fun n hn => assignedIds_spec (componentsOf sol) 0 n hn,
    assignedIds_fresh (componentsOf sol) 0⟩

theorem C1_witness :
    decodeSolution solW "m" "u" =
      .ok [⟨0, 0, .known "alice"⟩, ⟨1, 0, .unknown 0⟩]
    ∧ (⟨0, 0, PersonId.known "alice"⟩ : TrackEntry) ∈
        [(⟨0, 0, .known "alice"⟩ : TrackEntry), ⟨1, 0, .unknown 0⟩]
    ∧ (⟨1, 0, PersonId.unknown 0⟩ : TrackEntry) ∈
        [(⟨0, 0, .known "alice"⟩ : TrackEntry), ⟨1, 0, .unknown 0⟩] := by
  refine ⟨rfl, ?_, ?_⟩
  · exact (C1_decode_solution solW "m" "u").2.1
      [⟨0, 0, .known "alice"⟩, ⟨1, 0, .unknown 0⟩] rfl 0 (by decide)
      0 0 (by decide)
  · exact (C1_decode_solution solW "m" "u").2.1
      [⟨0, 0, .known "alice"⟩, ⟨1, 0, .unknown 0⟩] rfl 1 (by decide)
      1 0 (by decide)

/-- C3: for every list of labels, when the similarity model declares
itself symmetric, the similarity matrix built by computing only the
lower triangle and mirroring each value equals the matrix obtained by
computing every ordered pair, at every in-range cell and from any
initial `np.empty` contents, under the hypothesis that the comparison
is symmetric. -/
theorem C3_symmetric_skip_refines {α : Type} (cmp : α → α → ℚ)
    (labels : List α) (hsym : ∀ a b, cmp a b = cmp b a)
    (X0 X0' : Nat → Nat → ℚ) (i j : Nat)
    (hi : i < labels.length) (hj : j < labels.length) :
    mmxSimilarityMatrix true cmp labels X0 i j =
      mmxSimilarityMatrix false cmp labels X0' i j := by
  have hie : (i, labels.get ⟨i, hi⟩) ∈ labels.enum :=
    List.mk_mem_enum_iff_getElem?.2 (List.getElem?_eq_some.2 ⟨hi, rfl⟩)
  have hje : (j, labels.get ⟨j, hj⟩) ∈ labels.enum :=
    List.mk_mem_enum_iff_getElem?.2 (List.getElem?_eq_some.2 ⟨hj, rfl⟩)
  rw [mmxTrue_at cmp labels hie hje X0, mmxFalse_at cmp labels hie hje X0']
  by_cases h : j ≤ i
  · rw [if_pos h]
  · rw [if_neg h, hsym]

theorem C3_witness :
    mmxSimilarityMatrix true (fun a b => a + b) [(3 : ℚ), 7]
        (fun _ _ => 55) 0 1 =
      mmxSimilarityMatrix false (fun a b => a + b) [(3 : ℚ), 7]
        (fun _ _ => 99) 0 1
    ∧ mmxSimilarityMatrix true (fun a b => a + b) [(3 : ℚ), 7]
        (fun _ _ => 55) 0 1 = 10 :=
  ⟨C3_symmetric_skip_refines (fun a b => a + b) [(3 : ℚ), 7]
      (fun a b => add_comm a b) (fun _ _ => 55) (fun _ _ => 99) 0 1
      (by decide) (by decide),
    by norm_num [mmxSimilarityMatrix, writeAt, List.enum, List.enumFrom]⟩

/-- C2: `ContiguousConstraintMixin._initialize_constraint` raises a
`TypeError` on every input, because its very first statement calls
`LabelMatrix(dtype=bool, default=False)` and the `LabelMatrix`
constructor in `src/pyannote/base/matrix.py` has no `dtype` parameter;
the contiguity matrix is therefore never built and
`_meet_constraint` has no stored booleans to return. -/
theorem C2_initialize_constraint_raises {β : Type} [DecidableEq β]
    (labels : List β) (inter : β → β → Bool) :
    initializeContiguityConstraint labels inter =
      .error "TypeError: init got an unexpected keyword argument dtype" :=
  rfl

/-- C7: `argmax(axis=0, threshold=t)` maps every row label whose row
maximum strictly exceeds `t` to the set of column labels attaining that
maximum, and every other row label to the empty set. -/
theorem C7_argmax_threshold {α : Type} [DecidableEq α]
    (m : LabelMatrix α ℚ) (hwf : m.WF) (hj : m.jlabels ≠ []) (t : ℚ) :
    m.argmax (some LabelMatrix.Axis.A0) (some t) LabelMatrix.Ties.all =
      .ok (.perLabel (m.ilabels.map (fun i =>
        (i, if m.rowMaxSpec i > t then
              m.jlabels.filter (fun j => m.getItem i j = m.rowMaxSpec i)
            else [])))) := by
  have hdef : m.argmax (some LabelMatrix.Axis.A0) (some t)
      LabelMatrix.Ties.all =
      (m.argmax0 (some t) LabelMatrix.Ties.all).bind
        (fun L => .ok (.perLabel L)) := rfl
  rw [hdef, LabelMatrix.argmax0_eq m hwf hj]
  refine congrArg Except.ok
    (congrArg _ (List.map_congr_left fun i _ => ?_))
  rw [LabelMatrix.tiePick_all]
  by_cases hgt : m.rowMaxSpec i > t <;>
    simp [LabelMatrix.keepRow, hgt]

theorem mx7_wf : mx7.WF :=
  LabelMatrix.WF.init
    (show LabelMatrix.init ["a", "b"] ["d", "e"]
      (some ⟨2, 2, fun i j =>
        if i = 0 ∧ j = 0 then 2 else if i = 0 then 0 else 1⟩) 0 =
      .ok mx7 from rfl)
    (by decide) (by decide)

theorem C7_witness :
    mx7.argmax (some LabelMatrix.Axis.A0) (some 1) LabelMatrix.Ties.all =
      .ok (.perLabel [("a", ["d"]), ("b", [])]) := by
  rw [C7_argmax_threshold mx7 mx7_wf (by decide) 1]
  rfl

/-- C8 counterexample: with `axis=1` the `ties` argument is not
forwarded to the delegated `argmax(axis=0)` call, so `ties='any'`
returns the full 2-element tied set for column "c" instead of at most
one label. -/
theorem C8_counterexample :
    mx8.argmax (some LabelMatrix.Axis.A1) none LabelMatrix.Ties.any =
      .ok (.perLabel [("c", ["a", "b"])])
    ∧ 1 < (["a", "b"] : List String).length :=
  ⟨rfl, by decide⟩

/-- C8 (amended): for `axis=0`, `ties='any'` returns at most one label
per row, always a member of the tied set attaining the row maximum,
while `ties='all'` returns every tied label; for `axis=1` the `ties`
argument is not forwarded, so the call behaves like `ties='all'`
regardless of the argument. -/
theorem C8_tie_semantics {α : Type} [DecidableEq α]
    (m : LabelMatrix α ℚ) (hwf : m.WF) (hj : m.jlabels ≠ [])
    (th : Option ℚ) :
    (∀ L, m.argmax (some LabelMatrix.Axis.A0) th LabelMatrix.Ties.any =
        .ok (.perLabel L) →
      ∀ p ∈ L, p.2.length ≤ 1
        ∧ ∀ j₀ ∈ p.2, j₀ ∈ m.jlabels
            ∧ m.getItem p.1 j₀ = m.rowMaxSpec p.1
            ∧ LabelMatrix.keepRow th (m.rowMaxSpec p.1) = true)
    ∧ m.argmax (some LabelMatrix.Axis.A0) th LabelMatrix.Ties.all =
        .ok (.perLabel (m.ilabels.map (fun i =>
          (i, if LabelMatrix.keepRow th (m.rowMaxSpec i) then
                m.jlabels.filter
                  (fun j => m.getItem i j = m.rowMaxSpec i)
              else []))))
    ∧ (∀ ties, m.argmax (some LabelMatrix.Axis.A1) th ties =
        m.argmax (some LabelMatrix.Axis.A1) th LabelMatrix.Ties.all) := by
  have hany : m.argmax (some LabelMatrix.Axis.A0) th
      LabelMatrix.Ties.any =
      .ok (.perLabel (m.ilabels.map (fun i =>
        (i, LabelMatrix.tiePick LabelMatrix.Ties.any
              (if LabelMatrix.keepRow th (m.rowMaxSpec i) then
                m.jlabels.filter
                  (fun j => m.getItem i j = m.rowMaxSpec i)
              else []))))) := by
    have hdef : m.argmax (some LabelMatrix.Axis.A0) th
        LabelMatrix.Ties.any =
        (m.argmax0 th LabelMatrix.Ties.any).bind
          (fun L => .ok (.perLabel L)) := rfl
    rw [hdef, LabelMatrix.argmax0_eq m hwf hj]
    rfl
  refine ⟨?_, ?_, fun ties => rfl⟩
  · intro L hL
    rw [hany] at hL
    have hL' := LabelMatrix.ArgRes.perLabel.inj (Except.ok.inj hL)
    subst hL'
    intro p hp
    obtain ⟨i, _, rfl⟩ := List.mem_map.1 hp
    refine ⟨LabelMatrix.tiePick_any_length _, ?_⟩
    intro j₀ hj₀
    have hj₀' := LabelMatrix.tiePick_subset _ _ _ hj₀
    by_cases hk : LabelMatrix.keepRow th (m.rowMaxSpec i) = true
    · rw [if_pos hk] at hj₀'
      have := List.mem_filter.1 hj₀'
      exact ⟨this.1, by simpa using this.2, hk⟩
    · rw [if_neg hk] at hj₀'
      cases hj₀'
  · have hdef : m.argmax (some LabelMatrix.Axis.A0) th
        LabelMatrix.Ties.all =
        (m.argmax0 th LabelMatrix.Ties.all).bind
          (fun L => .ok (.perLabel L)) := rfl
    rw [hdef, LabelMatrix.argmax0_eq m hwf hj]
    refine congrArg Except.ok
      (congrArg _ (List.map_congr_left fun i _ => ?_))
    rw [LabelMatrix.tiePick_all]

theorem C8_witness :
    mx8.argmax (some LabelMatrix.Axis.A1) none LabelMatrix.Ties.any =
      mx8.argmax (some LabelMatrix.Axis.A1) none LabelMatrix.Ties.all :=
  (C8_tie_semantics mx8
    (LabelMatrix.WF.init
      (show LabelMatrix.init ["a", "b"] ["c"]
        (some ⟨2, 1, fun _ _ => 1⟩) 0 = .ok mx8 from rfl)
      (by decide) (by decide))
    (by decide) none).2.2 LabelMatrix.Ties.any

/-- C10: `argmin` with the default `threshold=None` always raises a
`TypeError` (the threshold is negated unconditionally; on a fully empty
matrix the earlier `-self` negation raises a `TypeError` first), and
its `ties` argument is never forwarded to `argmax`, so the result does
not depend on it. -/
theorem C10_argmin_requires_threshold {α : Type} [DecidableEq α]
    (m : LabelMatrix α ℚ) (axis : Option LabelMatrix.Axis)
    (t1 t2 : LabelMatrix.Ties) :
    (∃ s, m.argmin axis none t1 = .error s
      ∧ (s = "TypeError: bad operand type for unary minus NoneType"
         ∨ s = "TypeError: bad operand type for unary minus"))
    ∧ ∀ th, m.argmin axis th t1 = m.argmin axis th t2 := by
  have hdef : ∀ th ts, m.argmin axis th ts =
      m.negM.bind fun n => (LabelMatrix.negOpt th).bind fun t =>
        n.argmax axis (some t) LabelMatrix.Ties.all := fun _ _ => rfl
  constructor
  · rcases hM : m.Mij with _ | a
    · have h1 : m.negM = .error "TypeError: bad operand type for unary minus" := by
        simp [LabelMatrix.negM, hM]
      exact ⟨"TypeError: bad operand type for unary minus",
        by rw [hdef, h1]; rfl, Or.inr rfl⟩
    · have h1 : m.negM = .ok ⟨m.ilabels, m.jlabels, some a.negA, -m.default⟩ := by
        simp [LabelMatrix.negM, hM]
      exact ⟨"TypeError: bad operand type for unary minus NoneType",
        by rw [hdef, h1]; rfl, Or.inl rfl⟩
  · intro th
    rfl

end PyAnnote
